import Mathlib

/-!
Shallow embedding of `src/art/attacks/fast_gradient.py` (class `FastGradientMethod`).

Arrays are modelled as lists of rows (`Mat`): the batch dimension is the outer
list, all non-batch dimensions are flattened into the inner list.  Float
arithmetic is modelled over a linear ordered field (instantiated at `ℚ` or `ℝ`
in the theorems); exceptions (`ValueError`, `AssertionError`, numpy broadcast
errors) are modelled with `Except`/`Option`.
-/

set_option linter.unusedSectionVars false

deriving instance DecidableEq for Except

namespace FGM

/-- A 2-d array: list of example rows. -/
abbrev Mat (α : Type) := List (List α)

/-- The shape of a matrix: the list of its row lengths (`arr.shape`). -/
def matShape {α : Type} (m : Mat α) : List Nat := m.map List.length

/-- A Python value usable as the `norm` attribute: `np.inf` or a number. -/
inductive NormVal : Type
  | inf : NormVal
  | num : ℚ → NormVal
deriving DecidableEq

/-- `self.norm in [np.inf, int(1), int(2)]` (Python `==` equates `1` and `1.0`). -/
def NormVal.valid : NormVal → Bool
  | .inf => true
  | .num q => q = 1 || q = 2

/-- The attack's stored attribute triple `(self.norm, self.eps, self.targeted)`. -/
structure Config (α : Type) where
  norm : NormVal
  eps : α
  targeted : Bool
deriving DecidableEq

/-- A keyword-argument update: each of `norm`, `eps`, `targeted` optionally present. -/
structure ParamUpdate (α : Type) where
  norm : Option NormVal := none
  eps : Option α := none
  targeted : Option Bool := none
deriving DecidableEq

/-- The exceptions the module can raise. -/
inductive AttackError : Type
  /-- `ValueError` from `set_params`: bad norm order. -/
  | invalidNorm
  /-- `ValueError` from `set_params`: `eps <= 0`. -/
  | invalidEps
  /-- `ValueError` from `generate`: targeted attack without target labels. -/
  | missingTargetLabels
  /-- `AssertionError` in `_compute_perturbation`: gradient shape differs from batch shape. -/
  | shapeMismatch
  /-- numpy broadcast failure when adding arrays of incompatible shapes. -/
  | broadcastError
  /-- Python `TypeError: got multiple values for argument y`: when `generate` is
  called with an explicit `y=None`, `params_cpy` keeps the `y` key (it is popped
  only in the branch for a non-`None` `y`), so the minimal dispatch
  `self._minimal_perturbation(x, y, **params_cpy)` passes `y` both positionally
  and as a keyword. -/
  | duplicateY
deriving DecidableEq

/-- The `y` keyword argument of `generate`.  Python distinguishes the key being
absent from `kwargs` (`'y' not in params_cpy`), explicitly present with value
`None` (`params_cpy['y'] is None` — the key then stays in `params_cpy`), and
present with an array value (then popped from `params_cpy`). -/
inductive YArg (α : Type) : Type
  | absent : YArg α
  | passedNone : YArg α
  | passed : Mat α → YArg α
deriving DecidableEq

/-- The classifier capability (spec section 6): `predict` maps each batch row to a
row of class probabilities, `loss_gradient` maps each batch row and its label row
to a gradient row of the same shape, `clip_values` is `(min, max)`. -/
structure Classifier (α : Type) where
  predict : List α → List α
  loss_gradient : List α → List α → List α
  clip_values : α × α

variable {α : Type} [LinearOrderedField α]

/-- `classifier.predict(batch)`: row-wise prediction. -/
def predictMat (cls : Classifier α) (m : Mat α) : Mat α := m.map cls.predict

/-- `classifier.loss_gradient(batch, labels)`: row-wise gradient. -/
def lossGradMat (cls : Classifier α) (x y : Mat α) : Mat α :=
  List.zipWith cls.loss_gradient x y

/-- `np.sign` on a scalar. -/
def npSign (x : α) : α := if x < 0 then -1 else if x = 0 then 0 else 1

/-- `np.clip` on a scalar: `min(max(x, lo), hi)`. -/
def npClip (x lo hi : α) : α := min (max x lo) hi

/-- Per-example sum of absolute values (`np.sum(np.abs(g), axis=ind)`). -/
def rowAbsSum (row : List α) : α := (row.map (fun a => |a|)).sum

/-- Per-example sum of squares (`np.sum(np.square(g), axis=ind)`). -/
def rowSqSum (row : List α) : α := (row.map (fun a => a ^ 2)).sum

/-- The fixed tolerance `tol = 10e-8` of `_compute_perturbation`. -/
def tol : α := 10 / 10 ^ 8

/-- `np.argmax` helper: best index so far, best value so far, next index. -/
def argmaxGo : List α → Nat → Nat → α → Nat
  | [], _, bi, _ => bi
  | a :: rest, i, bi, bv =>
    if bv < a then argmaxGo rest (i + 1) i a else argmaxGo rest (i + 1) bi bv

/-- `np.argmax` over one row: index of the first maximal element (0 on the empty row). -/
def rowArgmax : List α → Nat
  | [] => 0
  | a :: rest => argmaxGo rest 1 0 a

/-- The scalar `(1 - 2 * int(self.targeted))`. -/
def targetedScale (t : Bool) : α := 1 - 2 * (if t then 1 else 0)

/-- Modelled from the spec: the base attack parameter container's `set_params`
(`super().set_params` in `art.attacks.attack`, not part of the sources) —
spec section 4.1: it "accepts a configuration update (subset of
`{norm, eps, targeted}`), applies it": each supplied keyword is stored as the
corresponding attribute. -/
def applyUpdate (c : Config α) (u : ParamUpdate α) : Config α :=
  { norm := u.norm.getD c.norm
    eps := u.eps.getD c.eps
    targeted := u.targeted.getD c.targeted }

/-- `FastGradientMethod.set_params`: first `super().set_params(**kwargs)` stores the
supplied attributes, then the norm order and `eps` are checked.  The result is the
attribute state after the call together with the raised error, if any. -/
def set_params (c : Config α) (u : ParamUpdate α) : Config α × Option AttackError :=
  let c' := applyUpdate c u
  if ¬ c'.norm.valid then (c', some .invalidNorm)
  else if c'.eps ≤ 0 then (c', some .invalidEps)
  else (c', none)

/-- Modelled from the spec: `get_labels_np_array` (`art.utils`, not part of the
sources) — spec section 4.6: labels are derived "from the classifier's own
predictions on the clean input"; rows are one-hot encoded at the predicted class. -/
def get_labels_np_array (preds : Mat α) : Mat α :=
  preds.map (fun row => (List.range row.length).map (fun j => if j = rowArgmax row then (1 : α) else 0))

/-- The row sum used as denominator in `generate`'s label normalization
(`np.sum(y, axis=1, keepdims=True)`): note — no tolerance term. -/
def labelRowSum (row : List α) : α := row.sum

/-- `y = y / np.sum(y, axis=1, keepdims=True)` in `generate`. -/
def normalizeLabels (y : Mat α) : Mat α :=
  y.map (fun row => row.map (fun v => v / labelRowSum row))

/-- The denominator of the L1 branch of `_compute_perturbation`:
per-example absolute sum plus the tolerance. -/
def l1Denom (row : List α) : α := rowAbsSum row + tol

/-- The (possibly negated) raw gradient `classifier.loss_gradient(batch, batch_labels)
* (1 - 2 * int(self.targeted))`. -/
def signedGrad (cls : Classifier α) (targeted : Bool) (batch labels : Mat α) : Mat α :=
  (lossGradMat cls batch labels).map (fun row => row.map (fun g => g * targetedScale targeted))

/-- `_compute_perturbation`: sign / L1-normalize / L2-normalize the signed gradient,
then `assert batch.shape == grad.shape` (modelled as an `Except`).  `sqrt` is the
ambient `np.sqrt`. -/
def compute_perturbation (cls : Classifier α) (cfg : Config α) (sqrt : α → α)
    (batch labels : Mat α) : Except AttackError (Mat α) :=
  let grad := signedGrad cls cfg.targeted batch labels
  let grad2 :=
    match cfg.norm with
    | .inf => grad.map (fun row => row.map npSign)
    | .num q =>
      if q = 1 then grad.map (fun row => row.map (fun g => g / (rowAbsSum row + tol)))
      else if q = 2 then grad.map (fun row => row.map (fun g => g / (sqrt (rowSqSum row) + tol)))
      else grad
  if matShape batch = matShape grad2 then .ok grad2 else .error .shapeMismatch

/-- `_apply_perturbation`: `np.clip(batch + eps * perturbation, clip_min, clip_max)`.
numpy raises when the shapes are incompatible; `none` models that failure
(the length-1 broadcast special case never arises on any path of this module
that returns a candidate). -/
def apply_perturbation (cls : Classifier α) (batch pert : Mat α) (eps : α) :
    Option (Mat α) :=
  if matShape batch = matShape pert then
    some (List.zipWith
      (fun brow prow => List.zipWith
        (fun b p => npClip (b + eps * p) cls.clip_values.1 cls.clip_values.2) brow prow)
      batch pert)
  else none

/-- The fixed batch size 128. -/
def batchSize : Nat := 128

/-- The slice `m[start : start + len]`. -/
def listSlice (m : Mat α) (start len : Nat) : Mat α := (m.drop start).take len

/-- Slice assignment `m[start : start + vals.length] = vals`. -/
def setSlice (m : Mat α) (start : Nat) (vals : Mat α) : Mat α :=
  m.take start ++ vals ++ m.drop (start + vals.length)

/-- Batch loop of `_compute`: one pass per batch id over the evolving buffer `adv`. -/
def computeGo (cls : Classifier α) (cfg : Config α) (sqrt : α → α) (y : Mat α) (eps : α) :
    List Nat → Mat α → Except AttackError (Mat α)
  | [], adv => .ok adv
  | bid :: rest, adv =>
    let b1 := bid * batchSize
    let batch := listSlice adv b1 batchSize
    let labels := listSlice y b1 batchSize
    match compute_perturbation cls cfg sqrt batch labels with
    | .error e => .error e
    | .ok pert =>
      match apply_perturbation cls batch pert eps with
      | none => .error .broadcastError
      | some ax => computeGo cls cfg sqrt y eps rest (setSlice adv b1 ax)

/-- `_compute`: fixed-step generation. `adv_x = x.copy()`, then one
normalizer + applier pass per batch of 128, writing each result back at the
batch's position. -/
def compute (cls : Classifier α) (cfg : Config α) (sqrt : α → α)
    (x y : Mat α) (eps : α) : Except AttackError (Mat α) :=
  computeGo cls cfg sqrt y eps (List.range (x.length / batchSize + 1)) x

/-- `np.where(np.argmax(labels, axis=1) == np.argmax(preds, axis=1))[0]`. -/
def matchIndices (labels preds : Mat α) : List Nat :=
  (List.range (min labels.length preds.length)).filter
    (fun i => rowArgmax (labels.getD i []) = rowArgmax (preds.getD i []))

/-- Fancy-indexing assignment `batch[idxs] = cand[idxs]`. -/
def assignRows (batch cand : Mat α) (idxs : List Nat) : Mat α :=
  idxs.foldl (fun b i => b.set i (cand.getD i [])) batch

/-- The state of the inner loop of `_minimal_perturbation`:
the working batch, the active index set, and `current_eps`. -/
structure MPState (α : Type) where
  batch : Mat α
  active : List Nat
  ceps : α
deriving DecidableEq

/-- One body of the inner `while` loop of `_minimal_perturbation`: craft the
candidate from the full original input `x`, overwrite the active rows, re-predict,
recompute the active set, increment `current_eps`. -/
def mpStep (cls : Classifier α) (x pert labels : Mat α) (eps_step : α)
    (s : MPState α) : Except AttackError (MPState α) :=
  match apply_perturbation cls x pert s.ceps with
  | none => .error .broadcastError
  | some current_x =>
    let batch' := assignRows s.batch current_x s.active
    let preds := predictMat cls batch'
    .ok ⟨batch', matchIndices labels preds, s.ceps + eps_step⟩

/-- The inner `while` loop of `_minimal_perturbation`, with explicit fuel
(`minimal_perturbation` supplies fuel proven sufficient whenever `eps_step > 0`;
with `eps_step <= 0` the Python loop would not terminate). -/
def mpLoop (cls : Classifier α) (x pert labels : Mat α) (eps_step eps_max : α) :
    Nat → MPState α → Except AttackError (MPState α)
  | 0, s => .ok s
  | fuel + 1, s =>
    if s.active ≠ [] ∧ s.ceps ≤ eps_max then
      match mpStep cls x pert labels eps_step s with
      | .error e => .error e
      | .ok s' => mpLoop cls x pert labels eps_step eps_max fuel s'
    else .ok s

section FloorDefs

variable [FloorRing α]

/-- Fuel sufficient for the inner loop when `eps_step > 0`
(proved with the claim C7 theorem). -/
def fuelFor (eps_step eps_max : α) : Nat := (⌈eps_max / eps_step⌉).toNat + 1

/-- Batch loop of `_minimal_perturbation`. -/
def minimalGo (cls : Classifier α) (cfg : Config α) (sqrt : α → α)
    (x y : Mat α) (eps_step eps_max : α) :
    List Nat → Mat α → Except AttackError (Mat α)
  | [], adv => .ok adv
  | bid :: rest, adv =>
    let b1 := bid * batchSize
    let batch := listSlice adv b1 batchSize
    let labels := listSlice y b1 batchSize
    match compute_perturbation cls cfg sqrt batch labels with
    | .error e => .error e
    | .ok pert =>
      match mpLoop cls x pert labels eps_step eps_max (fuelFor eps_step eps_max)
          ⟨batch, List.range batch.length, eps_step⟩ with
      | .error e => .error e
      | .ok t => minimalGo cls cfg sqrt x y eps_step eps_max rest (setSlice adv b1 t.batch)

/-- `_minimal_perturbation`: re-validate the parameters, copy the input, then
run the per-batch minimal search. -/
def minimal_perturbation (cls : Classifier α) (cfg : Config α) (u : ParamUpdate α)
    (sqrt : α → α) (x y : Mat α) (eps_step eps_max : α) : Except AttackError (Mat α) :=
  match (set_params cfg u).2 with
  | some e => .error e
  | none =>
    minimalGo cls (set_params cfg u).1 sqrt x y eps_step eps_max
      (List.range (x.length / batchSize + 1)) x

/-- `generate`: apply the configuration overrides, resolve the labels (failing for
a targeted attack without labels), normalize them to row sum 1, and dispatch to the
minimal search or the fixed-step generator.  `params_cpy.pop('y')` happens only in
the branch for a non-`None` supplied `y`, so when `y=None` is passed explicitly the
key stays in `params_cpy` and the minimal dispatch
`self._minimal_perturbation(x, y, **params_cpy)` receives `y` twice — a `TypeError`
(raised at that call, after the labels were derived and normalized). -/
def generate (cls : Classifier α) (cfg : Config α) (sqrt : α → α) (x : Mat α)
    (y? : YArg α) (u : ParamUpdate α) (minimal : Bool)
    (eps_step eps_max : α) : Except AttackError (Mat α) :=
  match (set_params cfg u).2 with
  | some e => .error e
  | none =>
    let c := (set_params cfg u).1
    match y? with
    | .absent =>
      if c.targeted then .error .missingTargetLabels
      else
        let yn := normalizeLabels (get_labels_np_array (predictMat cls x))
        if minimal then minimal_perturbation cls c u sqrt x yn eps_step eps_max
        else compute cls c sqrt x yn c.eps
    | .passedNone =>
      if c.targeted then .error .missingTargetLabels
      else
        let yn := normalizeLabels (get_labels_np_array (predictMat cls x))
        if minimal then .error .duplicateY
        else compute cls c sqrt x yn c.eps
    | .passed y =>
      let yn := normalizeLabels y
      if minimal then minimal_perturbation cls c u sqrt x yn eps_step eps_max
      else compute cls c sqrt x yn c.eps

end FloorDefs

/-- The per-example Euclidean norm `np.sqrt(np.sum(np.square(row)))` (over `ℝ`,
noncomputable because exact real square roots are). -/
noncomputable def euclidNorm (row : List ℝ) : ℝ := Real.sqrt (rowSqSum row)

/-! ### Basic helper lemmas -/

theorem exists_of_mem_zipWith {β γ δ : Type _} {f : β → γ → δ} :
    ∀ {l₁ : List β} {l₂ : List γ} {d : δ}, d ∈ List.zipWith f l₁ l₂ → ∃ a b, d = f a b
  | a :: l₁, b :: l₂, d, hd => by
    rcases List.mem_cons.1 hd with h | h
    · exact ⟨a, b, h⟩
    · exact exists_of_mem_zipWith h

theorem rowAbsSum_nonneg (row : List α) : 0 ≤ rowAbsSum row := by
  refine List.sum_nonneg ?_
  intro x hx
  obtain ⟨a, _, rfl⟩ := List.mem_map.1 hx
  exact abs_nonneg a

theorem tol_pos : (0 : α) < tol := by
  unfold tol; positivity

theorem l1Denom_pos (row : List α) : 0 < l1Denom row :=
  add_pos_of_nonneg_of_pos (rowAbsSum_nonneg row) tol_pos

theorem rowSqSum_nonneg (row : List α) : 0 ≤ rowSqSum row := by
  refine List.sum_nonneg ?_
  intro x hx
  obtain ⟨a, _, rfl⟩ := List.mem_map.1 hx
  exact sq_nonneg a

theorem rowAbsSum_cons (a : α) (r : List α) :
    rowAbsSum (a :: r) = |a| + rowAbsSum r := by
  simp [rowAbsSum]

theorem rowAbsSum_map_div (row : List α) (c : α) :
    rowAbsSum (row.map (fun a => a / c)) = rowAbsSum row / |c| := by
  induction row with
  | nil => simp [rowAbsSum]
  | cons a r ih =>
    simp only [List.map_cons, rowAbsSum_cons, ih, abs_div, add_div]

theorem rowSqSum_cons (a : α) (r : List α) :
    rowSqSum (a :: r) = a ^ 2 + rowSqSum r := by
  simp [rowSqSum]

theorem rowSqSum_map_div (row : List α) (c : α) :
    rowSqSum (row.map (fun a => a / c)) = rowSqSum row / c ^ 2 := by
  induction row with
  | nil => simp [rowSqSum]
  | cons a r ih =>
    simp only [List.map_cons, rowSqSum_cons, ih, div_pow, add_div]

theorem matMap_getD {f : List α → List α} {m : Mat α} {i : Nat} (h : i < m.length) :
    (m.map f).getD i [] = f (m.getD i []) := by
  simp [List.getD_eq_getElem?_getD, List.getElem?_map, List.getElem?_eq_getElem h]

theorem assignRows_cons (b c : Mat α) (j : Nat) (rest : List Nat) :
    assignRows b c (j :: rest) = assignRows (b.set j (c.getD j [])) c rest := rfl

theorem assignRows_length (b c : Mat α) (idxs : List Nat) :
    (assignRows b c idxs).length = b.length := by
  induction idxs generalizing b with
  | nil => rfl
  | cons j rest ih => rw [assignRows_cons, ih, List.length_set]

theorem assignRows_getD_of_not_mem (b c : Mat α) {idxs : List Nat} {i : Nat}
    (h : i ∉ idxs) : (assignRows b c idxs).getD i [] = b.getD i [] := by
  induction idxs generalizing b with
  | nil => rfl
  | cons j rest ih =>
    have hij : j ≠ i := by rintro rfl; exact h (List.mem_cons_self _ _)
    rw [assignRows_cons, ih _ (fun hr => h (List.mem_cons_of_mem _ hr))]
    simp [List.getD_eq_getElem?_getD, List.getElem?_set_ne hij]

theorem assignRows_getD_of_mem (b c : Mat α) {idxs : List Nat} {i : Nat}
    (h : i ∈ idxs) (hlt : i < b.length) :
    (assignRows b c idxs).getD i [] = c.getD i [] := by
  induction idxs generalizing b with
  | nil => cases h
  | cons j rest ih =>
    rw [assignRows_cons]
    by_cases hr : i ∈ rest
    · exact ih _ hr (by simpa using hlt)
    · have hij : i = j := by
        rcases List.mem_cons.1 h with h1 | h1
        · exact h1
        · exact absurd h1 hr
      subst hij
      rw [assignRows_getD_of_not_mem _ _ hr]
      simp [List.getD_eq_getElem?_getD, List.getElem?_set_self hlt]

theorem assignRows_getD_cases (b c : Mat α) (idxs : List Nat) (i : Nat) :
    (assignRows b c idxs).getD i [] = b.getD i []
      ∨ (assignRows b c idxs).getD i [] = c.getD i [] := by
  by_cases h : i ∈ idxs
  · by_cases hlt : i < b.length
    · exact Or.inr (assignRows_getD_of_mem b c h hlt)
    · left
      have hlen := assignRows_length b c idxs
      rw [List.getD_eq_getElem?_getD, List.getD_eq_getElem?_getD,
        List.getElem?_eq_none (by omega), List.getElem?_eq_none (by omega)]
  · exact Or.inl (assignRows_getD_of_not_mem b c h)

theorem mem_matchIndices {labels preds : Mat α} {i : Nat} :
    i ∈ matchIndices labels preds ↔
      (i < labels.length ∧ i < preds.length)
        ∧ rowArgmax (labels.getD i []) = rowArgmax (preds.getD i []) := by
  simp [matchIndices, List.mem_filter, List.mem_range, lt_min_iff, decide_eq_true_eq]

theorem predictMat_length (cls : Classifier α) (m : Mat α) :
    (predictMat cls m).length = m.length := List.length_map _ _

theorem predictMat_getD (cls : Classifier α) (m : Mat α) {i : Nat} (h : i < m.length) :
    (predictMat cls m).getD i [] = cls.predict (m.getD i []) := by
  simp [predictMat, List.getD_eq_getElem?_getD, List.getElem?_map,
    List.getElem?_eq_getElem h]

theorem mpStep_ok_elim {cls : Classifier α} {x pert labels : Mat α} {es : α}
    {s s' : MPState α} (h : mpStep cls x pert labels es s = .ok s') :
    ∃ cand, apply_perturbation cls x pert s.ceps = some cand
      ∧ s'.batch = assignRows s.batch cand s.active
      ∧ s'.active = matchIndices labels (predictMat cls s'.batch)
      ∧ s'.ceps = s.ceps + es := by
  unfold mpStep at h
  cases hc : apply_perturbation cls x pert s.ceps with
  | none => rw [hc] at h; cases h
  | some cand =>
    rw [hc] at h
    cases h
    exact ⟨cand, rfl, rfl, rfl, rfl⟩

theorem length_getD (m : Mat α) (j : Nat) :
    (m.getD j []).length = (matShape m).getD j 0 := by
  simp only [matShape, List.getD_eq_getElem?_getD, List.getElem?_map]
  cases m[j]? <;> simp

theorem matShape_zipWith {f : α → α → α} {a : Mat α} :
    ∀ {b : Mat α}, matShape a = matShape b →
      matShape (List.zipWith (fun r s => List.zipWith f r s) a b) = matShape a := by
  induction a with
  | nil => intro b _; simp [matShape]
  | cons r a ih =>
    intro b h
    cases b with
    | nil => simp [matShape] at h
    | cons s b =>
      simp only [matShape, List.map_cons, List.cons.injEq] at h
      simp only [List.zipWith_cons_cons, matShape, List.map_cons, List.cons.injEq]
      constructor
      · rw [List.length_zipWith, h.1, Nat.min_self]
      · exact ih h.2

theorem apply_perturbation_some_shapes {cls : Classifier α} {b p out : Mat α} {e : α}
    (h : apply_perturbation cls b p e = some out) :
    matShape b = matShape p ∧ matShape out = matShape b := by
  unfold apply_perturbation at h
  split at h
  case isTrue hsh => exact ⟨hsh, by cases h; exact matShape_zipWith hsh⟩
  case isFalse => cases h

theorem compute_perturbation_ok_shape {cls : Classifier α} {cfg : Config α}
    {sq : α → α} {batch labels g : Mat α}
    (h : compute_perturbation cls cfg sq batch labels = .ok g) :
    matShape g = matShape batch := by
  simp only [compute_perturbation] at h
  split at h
  case isTrue hsh => cases h; exact hsh.symm
  case isFalse => cases h

theorem setSlice_shape {m vals : Mat α} {start : Nat}
    (h : matShape vals = matShape (listSlice m start batchSize)) :
    matShape (setSlice m start vals) = matShape m := by
  have hlen : vals.length = (listSlice m start batchSize).length := by
    have h2 := congrArg List.length h
    simpa [matShape] using h2
  have htk : (m.drop start).take vals.length = listSlice m start batchSize := by
    unfold listSlice
    refine List.take_eq_take.mpr ?_
    rw [hlen]
    simp [listSlice, List.length_take]
  have hdd : m.drop (start + vals.length) = (m.drop start).drop vals.length := by
    rw [List.drop_drop]
  calc matShape (setSlice m start vals)
      = matShape (m.take start) ++ matShape vals
          ++ matShape (m.drop (start + vals.length)) := by
        simp [setSlice, matShape]
    _ = matShape (m.take start) ++ matShape ((m.drop start).take vals.length)
          ++ matShape ((m.drop start).drop vals.length) := by
        rw [h, ← htk, hdd]
    _ = matShape ((m.take start) ++ ((m.drop start).take vals.length
          ++ (m.drop start).drop vals.length)) := by
        simp [matShape]
    _ = matShape m := by
        rw [List.take_append_drop, List.take_append_drop]

theorem set_getD_self (s : List Nat) (j : Nat) : s.set j (s.getD j 0) = s := by
  by_cases hj : j < s.length
  · refine List.ext_getElem? fun i => ?_
    by_cases hij : j = i
    · subst hij
      rw [List.getElem?_set_self hj, List.getD_eq_getElem?_getD,
        List.getElem?_eq_getElem hj]
      simp
    · rw [List.getElem?_set_ne hij]
  · rw [List.set_eq_of_length_le (le_of_not_lt hj)]

theorem matShape_set {b : Mat α} {j : Nat} {v : List α}
    (h : v.length = (b.getD j []).length) :
    matShape (b.set j v) = matShape b := by
  show (b.set j v).map List.length = _
  rw [List.map_set, h, length_getD]
  exact set_getD_self _ _

theorem assignRows_matShape {cand : Mat α} (idxs : List Nat) :
    ∀ {b : Mat α}, matShape cand = matShape b →
      matShape (assignRows b cand idxs) = matShape b := by
  induction idxs with
  | nil => intro b _; rfl
  | cons j rest ih =>
    intro b h
    rw [assignRows_cons]
    have hset : matShape (b.set j (cand.getD j [])) = matShape b :=
      matShape_set (by rw [length_getD, length_getD, h])
    rw [ih (h.trans hset.symm), hset]

theorem mpLoop_shape {cls : Classifier α} {x pert labels : Mat α} {es em : α} :
    ∀ (fuel : Nat) (s t : MPState α),
      matShape pert = matShape s.batch →
      mpLoop cls x pert labels es em fuel s = .ok t →
      matShape t.batch = matShape s.batch := by
  intro fuel
  induction fuel with
  | zero => intro s t _ h; simp only [mpLoop] at h; cases h; rfl
  | succ n ih =>
    intro s t hpb h
    simp only [mpLoop] at h
    split at h
    · cases hs : mpStep cls x pert labels es s with
      | error e => rw [hs] at h; cases h
      | ok s' =>
        rw [hs] at h
        obtain ⟨cand, hc, hb, _, _⟩ := mpStep_ok_elim hs
        obtain ⟨hxp, hcx⟩ := apply_perturbation_some_shapes hc
        have hcb : matShape cand = matShape s.batch := hcx.trans (hxp.trans hpb)
        have hsb : matShape s'.batch = matShape s.batch := by
          rw [hb]; exact assignRows_matShape _ hcb
        exact (ih s' t (hpb.trans hsb.symm) h).trans hsb
    · cases h; rfl

theorem computeGo_shape {cls : Classifier α} {cfg : Config α} {sq : α → α}
    {y : Mat α} {eps : α} :
    ∀ (ids : List Nat) (adv out : Mat α),
      computeGo cls cfg sq y eps ids adv = .ok out →
      matShape out = matShape adv := by
  intro ids
  induction ids with
  | nil => intro adv out h; simp only [computeGo] at h; cases h; rfl
  | cons bid rest ih =>
    intro adv out h
    simp only [computeGo] at h
    cases hp : compute_perturbation cls cfg sq (listSlice adv (bid * batchSize) batchSize)
        (listSlice y (bid * batchSize) batchSize) with
    | error e => rw [hp] at h; cases h
    | ok pert =>
      rw [hp] at h
      dsimp only at h
      cases ha : apply_perturbation cls (listSlice adv (bid * batchSize) batchSize)
          pert eps with
      | none => rw [ha] at h; cases h
      | some ax =>
        rw [ha] at h
        have hax : matShape ax = matShape (listSlice adv (bid * batchSize) batchSize) :=
          (apply_perturbation_some_shapes ha).2
        exact (ih _ _ h).trans (setSlice_shape hax)

theorem minimalGo_shape [FloorRing α] {cls : Classifier α} {cfg : Config α} {sq : α → α}
    {x y : Mat α} {es em : α} :
    ∀ (ids : List Nat) (adv out : Mat α),
      minimalGo cls cfg sq x y es em ids adv = .ok out →
      matShape out = matShape adv := by
  intro ids
  induction ids with
  | nil => intro adv out h; simp only [minimalGo] at h; cases h; rfl
  | cons bid rest ih =>
    intro adv out h
    simp only [minimalGo] at h
    cases hp : compute_perturbation cls cfg sq (listSlice adv (bid * batchSize) batchSize)
        (listSlice y (bid * batchSize) batchSize) with
    | error e => rw [hp] at h; cases h
    | ok pert =>
      rw [hp] at h
      dsimp only at h
      cases hl : mpLoop cls x pert (listSlice y (bid * batchSize) batchSize) es em
          (fuelFor es em)
          ⟨listSlice adv (bid * batchSize) batchSize,
            List.range (listSlice adv (bid * batchSize) batchSize).length, es⟩ with
      | error e => rw [hl] at h; cases h
      | ok t =>
        rw [hl] at h
        have hpb : matShape pert = matShape (listSlice adv (bid * batchSize) batchSize) :=
          compute_perturbation_ok_shape hp
        have htb : matShape t.batch = matShape (listSlice adv (bid * batchSize) batchSize) :=
          mpLoop_shape _ _ _ hpb hl
        exact (ih _ _ h).trans (setSlice_shape htb)

theorem compute_shape {cls : Classifier α} {cfg : Config α} {sq : α → α}
    {x y out : Mat α} {eps : α} (h : compute cls cfg sq x y eps = .ok out) :
    matShape out = matShape x :=
  computeGo_shape _ _ _ h

theorem minimal_perturbation_shape [FloorRing α] {cls : Classifier α} {cfg : Config α}
    {u : ParamUpdate α} {sq : α → α} {x y out : Mat α} {es em : α}
    (h : minimal_perturbation cls cfg u sq x y es em = .ok out) :
    matShape out = matShape x := by
  unfold minimal_perturbation at h
  cases hsp : (set_params cfg u).2 with
  | some e => rw [hsp] at h; cases h
  | none =>
    rw [hsp] at h
    dsimp only at h
    exact minimalGo_shape _ _ _ h

/-! ### Claim theorems -/

/-- Claim C1 (code bug evidence): from the valid prior configuration
`(norm = np.inf, eps = 3/10, targeted = false)`, `set_params` with `eps = -1`
raises `ValueError` as claimed, but the stored `eps` attribute has already been
overwritten with `-1` (the base-class assignment precedes the validation), so the
prior configuration is NOT left unchanged. -/
theorem claim_C1_set_params_mutates_before_raising :
    set_params (⟨.inf, 3/10, false⟩ : Config ℚ) ⟨none, some (-1), none⟩
      = (⟨.inf, -1, false⟩, some .invalidEps)
    ∧ ((3 : ℚ) / 10 ≠ -1) := by
  constructor
  · norm_num [set_params, applyUpdate, NormVal.valid]
  · norm_num

/-- Claim C3 counterexample: with a valid untargeted configuration, calling
`generate` with an explicitly supplied `y = None` together with `minimal = True`
raises the duplicate-`y` `TypeError` (the `y` key was never popped from
`params_cpy`) instead of proceeding with the prediction-derived labels — the call
does not behave like the same call with those labels supplied, which succeeds. -/
theorem claim_C3_counterexample :
    generate (⟨fun r => r, fun r _ => r, (0, 1)⟩ : Classifier ℚ) ⟨.inf, 1, false⟩ id
        [[1]] .passedNone ⟨none, none, none⟩ true 1 1
      = .error .duplicateY
    ∧ generate (⟨fun r => r, fun r _ => r, (0, 1)⟩ : Classifier ℚ) ⟨.inf, 1, false⟩ id
        [[1]] (.passed (get_labels_np_array
            (predictMat (⟨fun r => r, fun r _ => r, (0, 1)⟩ : Classifier ℚ) [[1]])))
          ⟨none, none, none⟩ true 1 1
      = .ok [[1]]
    ∧ (Except.error .duplicateY : Except AttackError (Mat ℚ)) ≠ .ok [[1]] := by
  refine ⟨?_, ?_, by simp⟩
  · norm_num [generate, set_params, applyUpdate, NormVal.valid]
  · norm_num [generate, set_params, applyUpdate, NormVal.valid, get_labels_np_array,
      predictMat, rowArgmax, argmaxGo, normalizeLabels, labelRowSum,
      minimal_perturbation, minimalGo, fuelFor, mpLoop, mpStep, batchSize, listSlice,
      setSlice, compute_perturbation, signedGrad, lossGradMat, targetedScale, npSign,
      matShape, apply_perturbation, npClip, matchIndices, assignRows, List.filter,
      List.range, List.range.loop]

/-- Claim C3 (amended): with a validly-updated configuration, (i) if `targeted` is
set and `y` is absent or explicitly `None`, `generate` fails with the
missing-target-labels error for EVERY classifier (hence before any classifier
call), in both modes; (ii) if untargeted and `y` is absent, `generate` behaves
exactly as if called with the labels derived from the classifier's predictions on
the clean input, in both modes; (iii) the same holds for an explicitly passed
`y = None` in fixed-step mode; but (iv) with an explicit `y = None` and
`minimal = True`, `generate` raises the duplicate-`y` `TypeError` instead of
proceeding. -/
theorem claim_C3_generate_label_resolution (cfg : Config ℚ) (u : ParamUpdate ℚ)
    (sq : ℚ → ℚ) (x : Mat ℚ) (es em : ℚ)
    (hok : (set_params cfg u).2 = none) :
    ((set_params cfg u).1.targeted = true →
      ∀ (cls : Classifier ℚ) (minimal : Bool),
        generate cls cfg sq x .absent u minimal es em = .error .missingTargetLabels
        ∧ generate cls cfg sq x .passedNone u minimal es em
            = .error .missingTargetLabels)
    ∧ ((set_params cfg u).1.targeted = false →
      ∀ (cls : Classifier ℚ) (minimal : Bool),
        generate cls cfg sq x .absent u minimal es em
          = generate cls cfg sq x
              (.passed (get_labels_np_array (predictMat cls x))) u minimal es em)
    ∧ ((set_params cfg u).1.targeted = false →
      ∀ cls : Classifier ℚ,
        generate cls cfg sq x .passedNone u false es em
          = generate cls cfg sq x
              (.passed (get_labels_np_array (predictMat cls x))) u false es em)
    ∧ ((set_params cfg u).1.targeted = false →
      ∀ cls : Classifier ℚ,
        generate cls cfg sq x .passedNone u true es em = .error .duplicateY) := by
  refine ⟨?_, ?_, ?_, ?_⟩
  · intro ht cls minimal
    unfold generate
    rw [hok]
    simp [ht]
  · intro hf cls minimal
    unfold generate
    rw [hok]
    simp [hf]
  · intro hf cls
    unfold generate
    rw [hok]
    simp [hf]
  · intro hf cls
    unfold generate
    rw [hok]
    simp [hf]

theorem claim_C3_witness :
    generate (⟨fun r => r, fun r _ => r, (0, 1)⟩ : Classifier ℚ)
      ⟨.inf, 1, true⟩ id [[1]] .absent ⟨none, none, none⟩ false 0 0
      = .error .missingTargetLabels :=
  (((claim_C3_generate_label_resolution ⟨.inf, 1, true⟩ ⟨none, none, none⟩ id [[1]]
      0 0 (by norm_num [set_params, applyUpdate, NormVal.valid])).1
    (by norm_num [set_params, applyUpdate, NormVal.valid]) _ false)).1

theorem mpStep_active_subset {cls : Classifier α} {x pert labels : Mat α} {es : α}
    {s s' s'' : MPState α}
    (h1 : mpStep cls x pert labels es s = .ok s')
    (h2 : mpStep cls x pert labels es s' = .ok s'') :
    s''.active ⊆ s'.active := by
  obtain ⟨cand1, hc1, hb1, ha1, hc1'⟩ := mpStep_ok_elim h1
  obtain ⟨cand2, hc2, hb2, ha2, hc2'⟩ := mpStep_ok_elim h2
  intro i hi
  rw [ha2, mem_matchIndices] at hi
  obtain ⟨⟨hil, hip⟩, hcond⟩ := hi
  have hlen2 : i < s''.batch.length := by rwa [predictMat_length] at hip
  have hlenb : s''.batch.length = s'.batch.length := by rw [hb2, assignRows_length]
  by_contra hni
  have hrow : s''.batch.getD i [] = s'.batch.getD i [] := by
    rw [hb2]; exact assignRows_getD_of_not_mem _ _ hni
  refine hni ?_
  rw [ha1, mem_matchIndices]
  refine ⟨⟨hil, ?_⟩, ?_⟩
  · rw [predictMat_length]; omega
  · rw [predictMat_getD cls s'.batch (by omega)]
    rw [predictMat_getD cls s''.batch hlen2, hrow] at hcond
    exact hcond

theorem mpLoop_active_subset {cls : Classifier α} {x pert labels : Mat α} {es em : α} :
    ∀ (fuel : Nat) (u s' t : MPState α),
      mpStep cls x pert labels es u = .ok s' →
      mpLoop cls x pert labels es em fuel s' = .ok t →
      t.active ⊆ s'.active := by
  intro fuel
  induction fuel with
  | zero =>
    intro u s' t _ h2
    simp only [mpLoop] at h2
    cases h2
    exact fun a ha => ha
  | succ n ih =>
    intro u s' t h1 h2
    simp only [mpLoop] at h2
    split at h2
    · cases hs : mpStep cls x pert labels es s' with
      | error e => rw [hs] at h2; cases h2
      | ok s2 =>
        rw [hs] at h2
        exact (ih s' s2 t hs h2).trans (mpStep_active_subset h1 hs)
    · cases h2
      exact fun a ha => ha

/-- Claim C2: in the minimal-perturbation search, (i) for a single-batch input
(`x.length ≤ 128`) the batch handed to the inner loop is exactly the original
input `x`; (ii) every successful loop iteration produces its candidate by applying
the fixed direction at the current `eps` to the (never-mutated) original `x`, and
overwrites exactly the active rows of the working batch with the candidate's rows
at the same positions, leaving all other rows unchanged; (iii) if the perturbation's
shape differs from `x`'s (as for any later, non-degenerate batch), the iteration
raises a broadcast error instead of producing any candidate. -/
theorem claim_C2_minimal_candidate_from_original (cls : Classifier ℚ)
    (x pert labels : Mat ℚ) (es : ℚ) (hx : x.length ≤ batchSize) :
    (listSlice x (0 * batchSize) batchSize = x)
    ∧ (∀ s s' : MPState ℚ, mpStep cls x pert labels es s = .ok s' →
        ∃ cand, apply_perturbation cls x pert s.ceps = some cand
          ∧ s'.batch = assignRows s.batch cand s.active
          ∧ (∀ i, i ∉ s.active → s'.batch.getD i [] = s.batch.getD i [])
          ∧ (∀ i ∈ s.active, i < s.batch.length → s'.batch.getD i [] = cand.getD i []))
    ∧ (∀ s : MPState ℚ, matShape x ≠ matShape pert →
        mpStep cls x pert labels es s = .error .broadcastError) := by
  refine ⟨?_, ?_, ?_⟩
  · simp [listSlice, List.take_of_length_le hx]
  · intro s s' h
    obtain ⟨cand, hc, hb, _, _⟩ := mpStep_ok_elim h
    refine ⟨cand, hc, hb, ?_, ?_⟩
    · intro i hi
      rw [hb]; exact assignRows_getD_of_not_mem _ _ hi
    · intro i hi hlt
      rw [hb]; exact assignRows_getD_of_mem _ _ hi hlt
  · intro s hne
    have hnone : apply_perturbation cls x pert s.ceps = none := by
      unfold apply_perturbation; rw [if_neg hne]
    simp [mpStep, hnone]

theorem claim_C2_witness :
    listSlice ([[1]] : Mat ℚ) (0 * batchSize) batchSize = [[1]] :=
  (claim_C2_minimal_candidate_from_original
    (⟨fun r => r, fun r _ => r, (0, 1)⟩ : Classifier ℚ)
    [[1]] [[1]] [[1]] 1 (by decide)).1

/-- Claim C6: the active index set of the minimal search is non-increasing —
(i) between any two consecutive successful iterations of the inner loop the new
active set is a subset of the previous one, and (ii) once an iteration has run,
any number of further successful iterations only shrinks (never re-grows) that
active set: a row that has left it is never re-added.  (The classifier is a fixed
row-wise prediction function, i.e. deterministic.) -/
theorem claim_C6_active_set_monotone (cls : Classifier ℚ) (x pert labels : Mat ℚ)
    (es em : ℚ) :
    (∀ s s' s'' : MPState ℚ,
      mpStep cls x pert labels es s = .ok s' →
      mpStep cls x pert labels es s' = .ok s'' →
      s''.active ⊆ s'.active)
    ∧ (∀ (fuel : Nat) (u s' t : MPState ℚ),
      mpStep cls x pert labels es u = .ok s' →
      mpLoop cls x pert labels es em fuel s' = .ok t →
      t.active ⊆ s'.active) :=
  ⟨fun _ _ _ h1 h2 => mpStep_active_subset h1 h2,
   fun fuel u s' t h1 h2 => mpLoop_active_subset fuel u s' t h1 h2⟩

theorem claim_C6_witness : (0 : Nat) ∈ [0] :=
  (claim_C6_active_set_monotone
      (⟨fun r => [r.getD 0 0, 1 - r.getD 0 0], fun r _ => r, (0, 1)⟩ : Classifier ℚ)
      [[0], [0]] [[1], [1]] [[1, 0], [0, 1]] (1/2) 2).1
    ⟨[[0], [0]], [0, 1], 1/2⟩ ⟨[[1/2], [1/2]], [0], 1⟩ ⟨[[1], [1/2]], [0], 3/2⟩
    (by norm_num [mpStep, apply_perturbation, matShape, npClip, assignRows, matchIndices,
      predictMat, rowArgmax, argmaxGo, List.filter, List.range, List.range.loop])
    (by norm_num [mpStep, apply_perturbation, matShape, npClip, assignRows, matchIndices,
      predictMat, rowArgmax, argmaxGo, List.filter, List.range, List.range.loop])
    (by simp)

theorem mpLoop_exit {cls : Classifier α} {x pert labels : Mat α} {es em : α}
    (hstep : 0 < es) :
    ∀ (fuel : Nat) (s t : MPState α),
      (em - s.ceps) / es < (fuel : α) →
      mpLoop cls x pert labels es em fuel s = .ok t →
      t.active = [] ∨ em < t.ceps := by
  intro fuel
  induction fuel with
  | zero =>
    intro s t hf h
    simp only [mpLoop] at h
    cases h
    right
    by_contra hlt
    have hle : s.ceps ≤ em := not_lt.mp hlt
    have hge : (0 : α) ≤ (em - s.ceps) / es := div_nonneg (by linarith) hstep.le
    simp at hf
    linarith
  | succ n ih =>
    intro s t hf h
    simp only [mpLoop] at h
    split at h
    case isTrue hg =>
      cases hs : mpStep cls x pert labels es s with
      | error e => rw [hs] at h; cases h
      | ok s' =>
        rw [hs] at h
        refine ih s' t ?_ h
        obtain ⟨_, _, _, _, hce⟩ := mpStep_ok_elim hs
        have heq : (em - (s.ceps + es)) / es = (em - s.ceps) / es - 1 := by
          rw [show em - (s.ceps + es) = em - s.ceps - es by ring, sub_div,
            div_self hstep.ne']
        rw [hce, heq]
        push_cast at hf
        linarith
    case isFalse hg =>
      cases h
      rcases not_and_or.mp hg with h1 | h1
      · exact Or.inl (not_not.mp h1)
      · exact Or.inr (lt_of_not_le h1)

theorem fuelFor_sufficient [FloorRing α] {es em c0 : α} (hstep : 0 < es)
    (hinit : es ≤ c0) : (em - c0) / es < ((fuelFor es em : Nat) : α) := by
  unfold fuelFor
  have h1 : (em - c0) / es ≤ (em - es) / es :=
    (div_le_div_iff_of_pos_right hstep).2 (by linarith)
  have h2 : (em - es) / es = em / es - 1 := by
    rw [sub_div, div_self hstep.ne']
  have h3 : em / es ≤ (⌈em / es⌉ : α) := Int.le_ceil _
  have h4 : ((⌈em / es⌉ : ℤ) : α) ≤ ((⌈em / es⌉.toNat : ℕ) : α) := by
    have h5 : (⌈em / es⌉ : ℤ) ≤ (⌈em / es⌉.toNat : ℤ) := Int.self_le_toNat _
    exact_mod_cast h5
  push_cast
  linarith

theorem mpLoop_batch_rows {cls : Classifier α} {x pert labels : Mat α} {es em : α} :
    ∀ (fuel : Nat) (s t : MPState α),
      mpLoop cls x pert labels es em fuel s = .ok t →
      ∀ i, t.batch.getD i [] = s.batch.getD i []
        ∨ ∃ e cand, apply_perturbation cls x pert e = some cand
            ∧ t.batch.getD i [] = cand.getD i [] := by
  intro fuel
  induction fuel with
  | zero =>
    intro s t h i
    simp only [mpLoop] at h
    cases h
    exact Or.inl rfl
  | succ n ih =>
    intro s t h i
    simp only [mpLoop] at h
    split at h
    · cases hs : mpStep cls x pert labels es s with
      | error e => rw [hs] at h; cases h
      | ok s' =>
        rw [hs] at h
        rcases ih s' t h i with h1 | h1
        · obtain ⟨cand, hc, hb, _, _⟩ := mpStep_ok_elim hs
          rcases assignRows_getD_cases s.batch cand s.active i with h2 | h2
          · exact Or.inl (by rw [h1, hb, h2])
          · exact Or.inr ⟨s.ceps, cand, hc, by rw [h1, hb, h2]⟩
        · exact Or.inr h1
    · cases h
      exact Or.inl rfl

/-- Claim C7: with `eps_step > 0`, the inner loop of the minimal-perturbation
search (run with the fuel `_minimal_perturbation` supplies) returns with the loop
guard false — exit happens exactly when the active set is empty or `current_eps`
exceeds `eps_max` — and every row of the final working batch is either its
original (never-perturbed) value or the row of the candidate from some visited
step size, i.e. its last-applied perturbation. -/
theorem claim_C7_minimal_loop_terminates (cls : Classifier ℚ) (x pert labels : Mat ℚ)
    (es em : ℚ) (hstep : 0 < es) (s t : MPState ℚ) (hinit : es ≤ s.ceps)
    (h : mpLoop cls x pert labels es em (fuelFor es em) s = .ok t) :
    (t.active = [] ∨ em < t.ceps)
    ∧ ∀ i, t.batch.getD i [] = s.batch.getD i []
        ∨ ∃ e cand, apply_perturbation cls x pert e = some cand
            ∧ t.batch.getD i [] = cand.getD i [] :=
  ⟨mpLoop_exit hstep _ s t (fuelFor_sufficient hstep hinit) h,
   mpLoop_batch_rows _ s t h⟩

theorem claim_C7_witness : (([0] : List Nat) = [] ∨ (2 : ℚ) < 3) :=
  (claim_C7_minimal_loop_terminates (⟨fun r => r, fun r _ => r, (0, 1)⟩ : Classifier ℚ)
    [[0]] [[1]] [[1]] 1 2 (by norm_num) ⟨[[0]], [0], 1⟩ ⟨[[1]], [0], 3⟩ (by norm_num)
    (by norm_num [fuelFor, mpLoop, mpStep, apply_perturbation, matShape, npClip,
      assignRows, matchIndices, predictMat, rowArgmax, argmaxGo, List.filter,
      List.range, List.range.loop])).1

/-- Claim C4: whenever the perturbation applier returns (compatible shapes), its
output is exactly `clip(batch + eps * perturbation, clip_min, clip_max)`
elementwise, and — provided the classifier's declared range satisfies
`clip_min ≤ clip_max` — every element of the output lies in that range,
for every batch, every perturbation and every step size `eps`. -/
theorem claim_C4_apply_perturbation_clips (cls : Classifier ℚ) (batch pert out : Mat ℚ)
    (eps : ℚ) (hclip : cls.clip_values.1 ≤ cls.clip_values.2)
    (h : apply_perturbation cls batch pert eps = some out) :
    out = List.zipWith
        (fun brow prow => List.zipWith
          (fun b p => npClip (b + eps * p) cls.clip_values.1 cls.clip_values.2) brow prow)
        batch pert
    ∧ ∀ row ∈ out, ∀ e ∈ row, cls.clip_values.1 ≤ e ∧ e ≤ cls.clip_values.2 := by
  unfold apply_perturbation at h
  split at h
  · replace h := Option.some.inj h
    refine ⟨h.symm, ?_⟩
    intro row hrow e he
    rw [← h] at hrow
    obtain ⟨brow, prow, rfl⟩ := exists_of_mem_zipWith hrow
    obtain ⟨b, p, rfl⟩ := exists_of_mem_zipWith he
    exact ⟨le_min (le_max_right _ _) hclip, min_le_right _ _⟩
  · exact absurd h (by simp)

theorem claim_C4_witness :
    (0 : ℚ) ≤ 1 ∧ (1 : ℚ) ≤ 1 := by
  have h := claim_C4_apply_perturbation_clips
    (⟨fun r => r, fun r _ => r, (0, 1)⟩ : Classifier ℚ)
    [[1/2]] [[1]] [[1]] 1 (by norm_num)
    (by norm_num [apply_perturbation, matShape, npClip])
  exact h.2 [1] (by simp) 1 (by simp)

/-- Claim C5: properties of the normalized perturbation direction.  Whenever
`_compute_perturbation` returns (its shape assertion passes): the output has
exactly the shape of the input batch; under L∞ every element is `-1`, `0` or `1`;
under L1 each output row's absolute sum times the code's denominator (the row's
absolute sum plus the tolerance) recovers that absolute sum — so it equals
`S/(S + tol) ∈ [0, 1]`, i.e. ≈1 up to the tolerance added to the denominator —
and under L2 each output row's Euclidean norm satisfies the same relation with
the Euclidean denominator `N + tol`. -/
theorem claim_C5_perturbation_normalization (cls : Classifier ℝ) (cfg : Config ℝ)
    (batch labels g : Mat ℝ)
    (h : compute_perturbation cls cfg Real.sqrt batch labels = .ok g) :
    matShape g = matShape batch
    ∧ (cfg.norm = .inf → ∀ row ∈ g, ∀ e ∈ row, e = -1 ∨ e = 0 ∨ e = 1)
    ∧ (cfg.norm = .num 1 → ∀ i, i < g.length →
        0 ≤ rowAbsSum (g.getD i [])
        ∧ rowAbsSum (g.getD i []) ≤ 1
        ∧ rowAbsSum (g.getD i [])
            * l1Denom ((signedGrad cls cfg.targeted batch labels).getD i [])
          = rowAbsSum ((signedGrad cls cfg.targeted batch labels).getD i []))
    ∧ (cfg.norm = .num 2 → ∀ i, i < g.length →
        0 ≤ euclidNorm (g.getD i [])
        ∧ euclidNorm (g.getD i []) ≤ 1
        ∧ euclidNorm (g.getD i [])
            * (euclidNorm ((signedGrad cls cfg.targeted batch labels).getD i []) + tol)
          = euclidNorm ((signedGrad cls cfg.targeted batch labels).getD i [])) := by
  simp only [compute_perturbation] at h
  split at h
  case isFalse => cases h
  case isTrue hsh =>
    injection h with h
    subst h
    refine ⟨hsh.symm, ?_, ?_, ?_⟩
    · intro hn row hrow e he
      rw [hn] at hrow
      simp only at hrow
      obtain ⟨r0, hr0, rfl⟩ := List.mem_map.1 hrow
      obtain ⟨a, ha, rfl⟩ := List.mem_map.1 he
      unfold npSign
      split
      · exact Or.inl rfl
      · split
        · exact Or.inr (Or.inl rfl)
        · exact Or.inr (Or.inr rfl)
    · intro hn i hi
      rw [hn] at hi ⊢
      simp only [if_pos] at hi ⊢
      have hilen : i < (signedGrad cls cfg.targeted batch labels).length := by
        simpa using hi
      rw [matMap_getD hilen]
      have hc : (0:ℝ) < rowAbsSum ((signedGrad cls cfg.targeted batch labels).getD i []) + tol :=
        l1Denom_pos _
      rw [rowAbsSum_map_div _ _, abs_of_pos hc]
      refine ⟨div_nonneg (rowAbsSum_nonneg _) hc.le,
        (div_le_one hc).2 (le_add_of_nonneg_right tol_pos.le), ?_⟩
      exact div_mul_cancel₀ _ hc.ne'
    · intro hn i hi
      rw [hn] at hi ⊢
      dsimp only at hi ⊢
      rw [if_neg (by norm_num : ¬(2:ℚ) = 1), if_pos rfl] at hi ⊢
      have hilen : i < (signedGrad cls cfg.targeted batch labels).length := by
        simpa using hi
      rw [matMap_getD hilen]
      have hN : (0:ℝ) ≤ Real.sqrt (rowSqSum
          ((signedGrad cls cfg.targeted batch labels).getD i [])) :=
        Real.sqrt_nonneg _
      have hc : (0:ℝ) < Real.sqrt (rowSqSum
          ((signedGrad cls cfg.targeted batch labels).getD i [])) + tol :=
        add_pos_of_nonneg_of_pos hN tol_pos
      have heq : euclidNorm (((signedGrad cls cfg.targeted batch labels).getD i []).map
          (fun a => a / (Real.sqrt (rowSqSum
            ((signedGrad cls cfg.targeted batch labels).getD i [])) + tol)))
          = euclidNorm ((signedGrad cls cfg.targeted batch labels).getD i [])
            / (Real.sqrt (rowSqSum
              ((signedGrad cls cfg.targeted batch labels).getD i [])) + tol) := by
        unfold euclidNorm
        rw [rowSqSum_map_div, Real.sqrt_div (rowSqSum_nonneg _), Real.sqrt_sq hc.le]
      rw [heq]
      have hle : euclidNorm ((signedGrad cls cfg.targeted batch labels).getD i [])
          ≤ Real.sqrt (rowSqSum
            ((signedGrad cls cfg.targeted batch labels).getD i [])) + tol :=
        le_add_of_nonneg_right tol_pos.le
      refine ⟨div_nonneg (Real.sqrt_nonneg _) hc.le, (div_le_one hc).2 hle, ?_⟩
      exact div_mul_cancel₀ _ hc.ne'

theorem claim_C5_witness : matShape ([[1, -1]] : Mat ℝ) = matShape [[3, -4]] :=
  (claim_C5_perturbation_normalization
    (⟨fun r => r, fun r _ => r, (0, 1)⟩ : Classifier ℝ)
    ⟨.inf, 1, false⟩ [[3, -4]] [[1, 0]] [[1, -1]]
    (by norm_num [compute_perturbation, signedGrad, lossGradMat, targetedScale,
      npSign, matShape])).1

/-- Claim C8: fixed-step generation is deterministic — two classifiers whose
`predict`, `loss_gradient` and `clip_values` agree extensionally give identical
outputs of `_compute` on identical `(x, y, eps)` and configuration. -/
theorem claim_C8_compute_deterministic (cls₁ cls₂ : Classifier ℚ) (cfg : Config ℚ)
    (sq : ℚ → ℚ) (x y : Mat ℚ) (eps : ℚ)
    (hp : cls₁.predict = cls₂.predict)
    (hg : cls₁.loss_gradient = cls₂.loss_gradient)
    (hc : cls₁.clip_values = cls₂.clip_values) :
    compute cls₁ cfg sq x y eps = compute cls₂ cfg sq x y eps := by
  obtain ⟨p₁, g₁, c₁⟩ := cls₁
  obtain ⟨p₂, g₂, c₂⟩ := cls₂
  dsimp at hp hg hc
  subst hp; subst hg; subst hc
  rfl

theorem claim_C8_witness :
    compute (⟨fun r => r, fun r _ => r, (0, 1)⟩ : Classifier ℚ) ⟨.inf, 1, false⟩
        id [[1/2]] [[1, 0]] 1
      = compute (⟨fun r => r, fun r _ => r, (0, 1)⟩ : Classifier ℚ) ⟨.inf, 1, false⟩
        id [[1/2]] [[1, 0]] 1 :=
  claim_C8_compute_deterministic _ _ _ _ _ _ _ rfl rfl rfl

/-- Claim C10: the label normalization of `generate` divides by the plain row sum
with no tolerance term — for the row `[0, 0]` that denominator is `0` — whereas
the gradient normalizer's denominator always carries the positive tolerance and
is strictly positive on every row. -/
theorem claim_C10_label_normalization_divides_by_zero :
    labelRowSum ([0, 0] : List ℚ) = 0
    ∧ (∀ row : List ℚ, 0 < l1Denom row)
    ∧ normalizeLabels ([[0, 0]] : Mat ℚ)
        = [[0 / labelRowSum ([0, 0] : List ℚ), 0 / labelRowSum ([0, 0] : List ℚ)]] := by
  refine ⟨by simp [labelRowSum], fun row => l1Denom_pos row, rfl⟩

/-- Claim C9: `generate` builds its result in a buffer seeded from a copy of the
clean input (`x` is itself passed by value in the embedding and never rebound, so
the input is unchanged by construction), and whenever `generate` returns — in
fixed-step or minimal mode — the returned buffer has exactly the shape of `x`. -/
theorem claim_C9_generate_preserves_shape (cls : Classifier ℚ) (cfg : Config ℚ)
    (sq : ℚ → ℚ) (x : Mat ℚ) (y? : YArg ℚ) (u : ParamUpdate ℚ)
    (minimal : Bool) (es em : ℚ) (out : Mat ℚ)
    (h : generate cls cfg sq x y? u minimal es em = .ok out) :
    matShape out = matShape x := by
  unfold generate at h
  cases hsp : (set_params cfg u).2 with
  | some e => rw [hsp] at h; cases h
  | none =>
    rw [hsp] at h
    dsimp only at h
    cases y? with
    | absent =>
      dsimp only at h
      by_cases ht : (set_params cfg u).1.targeted = true
      · rw [if_pos ht] at h; cases h
      · rw [if_neg ht] at h
        by_cases hm : minimal = true
        · rw [if_pos hm] at h; exact minimal_perturbation_shape h
        · rw [if_neg hm] at h; exact compute_shape h
    | passedNone =>
      dsimp only at h
      by_cases ht : (set_params cfg u).1.targeted = true
      · rw [if_pos ht] at h; cases h
      · rw [if_neg ht] at h
        by_cases hm : minimal = true
        · rw [if_pos hm] at h; cases h
        · rw [if_neg hm] at h; exact compute_shape h
    | passed y =>
      dsimp only at h
      by_cases hm : minimal = true
      · rw [if_pos hm] at h; exact minimal_perturbation_shape h
      · rw [if_neg hm] at h; exact compute_shape h

theorem claim_C9_witness : matShape ([[1]] : Mat ℚ) = matShape [[1/2]] :=
  claim_C9_generate_preserves_shape
    (⟨fun r => r, fun r _ => r, (0, 1)⟩ : Classifier ℚ) ⟨.inf, 1, false⟩ id
    [[1/2]] (.passed [[1, 0]]) ⟨none, none, none⟩ false 0 0 [[1]]
    (by norm_num [generate, set_params, applyUpdate, NormVal.valid, compute, computeGo,
      batchSize, listSlice, setSlice, compute_perturbation, signedGrad, lossGradMat,
      targetedScale, npSign, matShape, apply_perturbation, npClip, normalizeLabels,
      labelRowSum])

end FGM
